import Mathlib

/-!
Verification of the Knuth–Plass line-breaking core of the `text` library.

The Go source is shallowly embedded:
* strings are `List Char` (Go iterates runes; `Text.Width` sums a per-rune
  measure function, so a `Char → ℚ` parameter `measure` stands for the
  injected `MeasureFunc` and widths live in `ℚ` instead of `float64`);
* grapheme segmentation (`uax29.Graphemes`) is an external collaborator of
  the library, so the greedy `Wrap` takes the grapheme decomposition as an
  explicit `List (List Char)` parameter;
* Go slices become `List`, `nil` results become `[]`, and the adjustment
  ratio division is `ℚ` division (the claims under study never hinge on the
  `MaxWidth = 0` division-by-zero float edge);
* `pruneBreakpoints` in Go iterates a map whose order is unspecified; the
  embedding fixes the deterministic order "line numbers by first occurrence".
  Every theorem below that could be sensitive to that order carries
  hypotheses (`0 < LinePenalty`, `0 ≤ HyphenPenalty`) under which all
  demerit comparisons are strict, so the conclusions are order-independent.
-/

set_option allowUnsafeReducibility true

attribute [semireducible] Rat.mul Rat.add Rat.sub Rat.div Rat.inv Rat.neg

namespace KP

/-- Width of a string: `Text.Width` sums the configured per-rune measure. -/
def Width (measure : Char → ℚ) (s : List Char) : ℚ :=
  (s.map measure).sum

/-- `box` from the Go source: an item in the text (word or glue). -/
structure Box where
  content : List Char
  width : ℚ
  position : Nat
  isGlue : Bool
  penalty : ℚ
deriving DecidableEq, Repr

/-- `KnuthPlassOptions` from the Go source, fields in declaration order. -/
structure KnuthPlassOptions where
  MaxWidth : ℚ
  Tolerance : ℚ
  FitnessClass : Bool
  Hyphenate : Bool
  HyphenPenalty : ℚ
  LinePenalty : ℚ
deriving DecidableEq, Repr

/-- `DefaultKnuthPlassOptions` from the Go source. -/
def DefaultKnuthPlassOptions (maxWidth : ℚ) : KnuthPlassOptions :=
  ⟨maxWidth, 1, true, false, 50, 10⟩

/-- `strings.Split(text, " ")`: splits on every single space, keeping empty
tokens (so `""` yields `[[]]` just as Go yields `[""]`). -/
def splitOnSpace : List Char → List (List Char)
  | [] => [[]]
  | c :: rest =>
    if c = ' ' then [] :: splitOnSpace rest
    else
      match splitOnSpace rest with
      | [] => [[c]]
      | h :: t => (c :: h) :: t

/-- The loop body of `textToBoxes`: `parts` still to process, `i` the index of
the head of `parts` in the full split, `n` the total number of parts, `pos`
the running rune position. Empty parts are skipped (without advancing `pos`,
exactly as in the source); a glue box follows each word except the last part. -/
def textToBoxesGo (measure : Char → ℚ) (n : Nat) :
    List (List Char) → Nat → Nat → List Box
  | [], _, _ => []
  | part :: rest, i, pos =>
    if part.isEmpty then textToBoxesGo measure n rest (i + 1) pos
    else if i < n - 1 then
      ⟨part, Width measure part, pos, false, 0⟩ ::
        ⟨[' '], measure ' ', pos + part.length, true, 0⟩ ::
          textToBoxesGo measure n rest (i + 1) (pos + part.length + 1)
    else
      ⟨part, Width measure part, pos, false, 0⟩ ::
        textToBoxesGo measure n rest (i + 1) (pos + part.length)

/-- `textToBoxes` from the Go source: words and glue with running positions. -/
def textToBoxes (measure : Char → ℚ) (text : List Char) : List Box :=
  textToBoxesGo measure (splitOnSpace text).length (splitOnSpace text) 0 0

/-- `breakpoint` from the Go source: a node of the dynamic-programming search
with its backtracking chain.  Go's `prev *breakpoint` is either `nil`
(constructor `root`) or a pointer to the predecessor (constructor `node`).
The Go field `ratio` is called `adjr` here. -/
inductive Breakpoint : Type where
  | root (position : Nat) (demerits : ℚ) (adjr : ℚ) (line : Nat)
      (fitness : Nat)
  | node (position : Nat) (demerits : ℚ) (adjr : ℚ) (line : Nat)
      (fitness : Nat) (prev : Breakpoint)
deriving DecidableEq, Repr

def Breakpoint.position : Breakpoint → Nat
  | .root p _ _ _ _ => p
  | .node p _ _ _ _ _ => p

def Breakpoint.demerits : Breakpoint → ℚ
  | .root _ d _ _ _ => d
  | .node _ d _ _ _ _ => d

def Breakpoint.adjr : Breakpoint → ℚ
  | .root _ _ r _ _ => r
  | .node _ _ r _ _ _ => r

def Breakpoint.line : Breakpoint → Nat
  | .root _ _ _ l _ => l
  | .node _ _ _ l _ _ => l

def Breakpoint.fitness : Breakpoint → Nat
  | .root _ _ _ _ f => f
  | .node _ _ _ _ f _ => f

/-- The initial active candidate: position 0, zero demerits, line 0, normal
fitness, no predecessor. -/
def sentinel : Breakpoint := .root 0 0 0 0 1

/-- The backtracking loop at the end of `findOptimalBreakpoints`: walk the
predecessor chain, collecting every position above 0, in chain order. -/
def Breakpoint.btk : Breakpoint → List Nat
  | .root p _ _ _ _ => if 0 < p then [p] else []
  | .node p _ _ _ _ q => q.btk ++ (if 0 < p then [p] else [])

/-- `calculateLineWidth` from the Go source: sum of widths of
`boxes[start..end]`, clamped to the slice length. -/
def calculateLineWidth (boxes : List Box) (start finish : Nat) : ℚ :=
  (((boxes.drop start).take (finish + 1 - start)).map (·.width)).sum

/-- `calculateBadness` from the Go source. -/
def calculateBadness (r tol : ℚ) : ℚ :=
  if r < -1 then 10000
  else if tol < r then 10000
  else 100 * |r| ^ 3

/-- `calculateFitness` from the Go source. -/
def calculateFitness (r : ℚ) : Nat :=
  if r < -(1 / 2) then 0
  else if r ≤ 1 / 2 then 1
  else if r ≤ 1 then 2
  else 3

/-- `math.Abs(float64(a - b))` on the two fitness classes. -/
def fitDiff (a b : Nat) : Nat := ((a : Int) - (b : Int)).natAbs

/-- The break-penalty selection inside `findOptimalBreakpoints`: the box's own
penalty, overridden by the configured hyphen penalty when the content's last
character is a literal hyphen (Go checks the last byte, which for UTF-8 is
equivalent to the last rune being `'-'`). -/
def usedPenalty (opts : KnuthPlassOptions) (bx : Box) : ℚ :=
  if bx.content.getLast? = some '-' then opts.HyphenPenalty else bx.penalty

/-- The adjustment ratio of the line spanning `[a.position, i]`:
`(maxWidth - lineWidth) / maxWidth`. -/
def lineAdjr (opts : KnuthPlassOptions) (boxes : List Box) (a : Breakpoint)
    (i : Nat) : ℚ :=
  (opts.MaxWidth - calculateLineWidth boxes a.position i) / opts.MaxWidth

/-- The fitness-incompatibility surcharge: 100 extra demerits when the check
is enabled and the classes differ by more than one step. -/
def fitPenalty (opts : KnuthPlassOptions) (fitness oldFitness : Nat) : ℚ :=
  if opts.FitnessClass = true ∧ 1 < fitDiff fitness oldFitness then 100 else 0

/-- One candidate-extension attempt of the inner loop of
`findOptimalBreakpoints`: from active node `a`, try to break after box `i`
(which is `bx`).  `none` models the two `continue` branches. -/
def tryBreak (opts : KnuthPlassOptions) (boxes : List Box) (i : Nat)
    (bx : Box) (a : Breakpoint) : Option Breakpoint :=
  let r := lineAdjr opts boxes a i
  if r < -1 then none
  else
    let badness := calculateBadness r opts.Tolerance
    if 10000 ≤ badness then none
    else
      let penalty := usedPenalty opts bx
      let demerits := (opts.LinePenalty + badness + penalty) ^ 2
      let fitness := calculateFitness r
      let total := a.demerits + demerits + fitPenalty opts fitness a.fitness
      some (.node (i + 1) total r (a.line + 1) fitness a)

/-- The scan pattern shared by `pruneBreakpoints` and the final selection:
start from `b`, replace it whenever a strictly smaller `demerits` is seen. -/
def bestBP : Breakpoint → List Breakpoint → Breakpoint
  | b, [] => b
  | b, x :: t => bestBP (if x.demerits < b.demerits then x else b) t

/-- Helper of `firstOccs`: collect the elements not yet seen, keeping order. -/
def firstOccsAux : List Nat → List Nat → List Nat
  | [], _ => []
  | x :: xs, seen =>
    if x ∈ seen then firstOccsAux xs seen
    else x :: firstOccsAux xs (x :: seen)

/-- Line numbers in order of first occurrence (the embedding's deterministic
stand-in for Go's unspecified map iteration order in `pruneBreakpoints`). -/
def firstOccs (l : List Nat) : List Nat := firstOccsAux l []

/-- `pruneBreakpoints` from the Go source: keep, for each line number, the
first candidate attaining the lowest demerits of its group. -/
def pruneBreakpoints (bps : List Breakpoint) : List Breakpoint :=
  (firstOccs (bps.map (·.line))).filterMap fun l =>
    match bps.filter (fun bp => bp.line = l) with
    | [] => none
    | h :: t => some (bestBP h t)

/-- One iteration of the `for i` loop of `findOptimalBreakpoints`: skip glue,
extend every active candidate, and if any extension succeeded merge and
prune.  (The `none` arm is unreachable for `i < boxes.length`.) -/
def kpStep (opts : KnuthPlassOptions) (boxes : List Box)
    (active : List Breakpoint) (i : Nat) : List Breakpoint :=
  match boxes[i]? with
  | none => active
  | some bx =>
    if bx.isGlue then active
    else
      let newActive := active.filterMap (tryBreak opts boxes i bx)
      if newActive.isEmpty then active
      else pruneBreakpoints (active ++ newActive)

/-- The active set after the first `k` iterations of the forward pass. -/
def kpActiveAfter (opts : KnuthPlassOptions) (boxes : List Box) (k : Nat) :
    List Breakpoint :=
  ((List.range boxes.length).take k).foldl (kpStep opts boxes) [sentinel]

/-- The final selection of `findOptimalBreakpoints`: the first active node
attaining the minimal demerits (Go scans with a strict `<` against an
initial `math.MaxFloat64`; the active set always contains the sentinel, so
the guard is equivalent to scanning from the first element). -/
def argminBP : List Breakpoint → Option Breakpoint
  | [] => none
  | h :: t => some (bestBP h t)

/-- `findOptimalBreakpoints` from the Go source. -/
def findOptimalBreakpoints (opts : KnuthPlassOptions) (boxes : List Box) :
    List Nat :=
  if boxes.isEmpty then []
  else
    match argminBP (kpActiveAfter opts boxes boxes.length) with
    | none => []
    | some best => best.btk

/-- `Line` from the Go source. -/
structure Line where
  Content : List Char
  Width : ℚ
  Start : Nat
  End : Nat
deriving DecidableEq, Repr

/-- State of the greedy `Wrap` loop. -/
structure WrapState where
  lines : List Line
  currentLine : List Char
  currentWidth : ℚ
  lineStart : Nat
deriving DecidableEq, Repr

/-- One iteration of the grapheme loop of the greedy `Wrap`; `ig` is the
(index, grapheme) pair of Go's `for i, g := range graphemes`. -/
def wrapStep (measure : Char → ℚ) (maxWidth : ℚ) (st : WrapState)
    (ig : Nat × List Char) : WrapState :=
  let gWidth := Width measure ig.2
  if maxWidth < st.currentWidth + gWidth ∧ 0 < st.currentWidth then
    ⟨st.lines ++
        [⟨st.currentLine, st.currentWidth, st.lineStart,
          st.lineStart + st.currentLine.length⟩],
      ig.2, gWidth, ig.1⟩
  else
    ⟨st.lines, st.currentLine ++ ig.2, st.currentWidth + gWidth, st.lineStart⟩

/-- `Wrap` from the Go source (greedy first-fit).  Only `MaxWidth` of
`WrapOptions` is read by the Go body, so it is the only option modelled; the
grapheme decomposition of `text` is the external `uax29.Graphemes` result,
passed explicitly. -/
def Wrap (measure : Char → ℚ) (graphemes : List (List Char))
    (text : List Char) (maxWidth : ℚ) : List Line :=
  if maxWidth ≤ 0 then [⟨text, Width measure text, 0, text.length⟩]
  else
    let st := graphemes.enum.foldl (wrapStep measure maxWidth) ⟨[], [], 0, 0⟩
    if st.currentLine.isEmpty then st.lines
    else
      st.lines ++
        [⟨st.currentLine, st.currentWidth, st.lineStart,
          st.lineStart + st.currentLine.length⟩]

/-- Go's `unicode.IsSpace`. -/
def goIsSpace (c : Char) : Bool :=
  let n := c.toNat
  (9 ≤ n && n ≤ 13) || n == 32 || n == 0x85 || n == 0xA0 || n == 0x1680 ||
    (0x2000 ≤ n && n ≤ 0x200A) || n == 0x2028 || n == 0x2029 ||
    n == 0x202F || n == 0x205F || n == 0x3000

/-- Go's `strings.TrimSpace`. -/
def trimSpace (l : List Char) : List Char :=
  ((l.dropWhile goIsSpace).reverse.dropWhile goIsSpace).reverse

/-- One iteration of the breakpoint loop of `breakpointsToLines`, carrying
`(lines so far, start)`.  Mirrors the Go source: clamp the break position,
find its text position, slice, trim, emit if non-empty, then skip one
following space. -/
def bptlStep (measure : Char → ℚ) (runes : List Char) (boxes : List Box)
    (st : List Line × Nat) (breakPos0 : Nat) : List Line × Nat :=
  let breakPos := min breakPos0 boxes.length
  let textPos0 :=
    if 0 < breakPos ∧ breakPos ≤ boxes.length then
      match boxes[breakPos - 1]? with
      | some bx => bx.position + bx.content.length
      | none => 0
    else 0
  let textPos := min textPos0 runes.length
  let start := st.2
  let content := trimSpace ((runes.drop start).take (textPos - start))
  let lines :=
    if content.isEmpty then st.1
    else
      st.1 ++ [⟨content, Width measure content, start, start + content.length⟩]
  let start2 := if runes[textPos]? = some ' ' then textPos + 1 else textPos
  (lines, start2)

/-- `breakpointsToLines` from the Go source. -/
def breakpointsToLines (measure : Char → ℚ) (text : List Char)
    (boxes : List Box) (breakpoints : List Nat) : List Line :=
  let st := breakpoints.foldl (bptlStep measure text boxes) ([], 0)
  if st.2 < text.length then
    let content := trimSpace (text.drop st.2)
    if content.isEmpty then st.1
    else st.1 ++ [⟨content, Width measure content, st.2, text.length⟩]
  else st.1

/-- `WrapKnuthPlass` from the Go source. -/
def WrapKnuthPlass (measure : Char → ℚ) (graphemes : List (List Char))
    (text : List Char) (opts : KnuthPlassOptions) : List Line :=
  let boxes := textToBoxes measure text
  if boxes.isEmpty then []
  else
    let breakpoints := findOptimalBreakpoints opts boxes
    if breakpoints.isEmpty then Wrap measure graphemes text opts.MaxWidth
    else breakpointsToLines measure text boxes breakpoints

/-- The predecessor chain of a candidate has strictly decreasing positions. -/
def Breakpoint.decr : Breakpoint → Bool
  | .root _ _ _ _ _ => true
  | .node p _ _ _ _ q => decide (q.position < p) && q.decr

/-- Invariant of the active set maintained by the forward pass: the
paragraph-start sentinel is active, it is the only line-0 candidate, and
every other candidate carries strictly positive demerits. -/
def GoodActive (l : List Breakpoint) : Prop :=
  sentinel ∈ l ∧ (∀ bp ∈ l, bp.line = 0 → bp = sentinel) ∧
    ∀ bp ∈ l, bp = sentinel ∨ 0 < bp.demerits

/-- All candidates of an active set have decreasing predecessor chains and
positions at most `k` (the number of forward-pass iterations done). -/
def DecrBound (k : Nat) (l : List Breakpoint) : Prop :=
  ∀ bp ∈ l, bp.decr = true ∧ bp.position ≤ k

/-- A terminal-width measure: every rune is one cell wide (the value
`TerminalMeasure` takes on the ASCII inputs used below). -/
def asciiM : Char → ℚ := fun _ => 1

/-- The grapheme decomposition of an ASCII string: one cluster per rune. -/
def singletons (l : List Char) : List (List Char) := l.map (fun c => [c])

def tAB : List Char := "a b".toList

def t2SP : List Char := "a  b".toList

def tSP : List Char := [' ']

def tABCDEF : List Char := "abcdef".toList

def tA : List Char := ['a']

def opts20 : KnuthPlassOptions := DefaultKnuthPlassOptions 20

def opts10 : KnuthPlassOptions := DefaultKnuthPlassOptions 10

def opts3 : KnuthPlassOptions := DefaultKnuthPlassOptions 3

def optsNeg : KnuthPlassOptions := DefaultKnuthPlassOptions (-1)

/-- A box whose content ends in a literal hyphen, with a nonzero recorded
penalty, for exercising the hyphen override. -/
def hyBox : Box := ⟨['a', '-'], 2, 0, false, 7⟩

/-- The single box produced for the one-word text `"a"` at unit widths. -/
def boxA : Box := ⟨['a'], 1, 0, false, 0⟩

def boxesA : List Box := [boxA]

/-- The boxes of `"a b"` at unit widths. -/
def boxesAB : List Box := textToBoxes asciiM tAB

/-- The candidate produced by breaking after box 0 of `boxesA` from the
sentinel at `MaxWidth = 20` with default options. -/
def bp9 : Breakpoint :=
  .node 1 ((58660281 : ℚ) / 6400) ((19 : ℚ) / 20) 1 2 sentinel

/-- The single line the greedy wrapper produces for `"a b"` at width 3. -/
def lineAB : Line := ⟨['a', ' ', 'b'], 3, 0, 3⟩

/-! ### Lemmas about the best-of scan, first occurrences and pruning -/

theorem bestBP_mem (t : List Breakpoint) : ∀ b, bestBP b t ∈ b :: t := by
  induction t with
  | nil => intro b; simp [bestBP]
  | cons x t ih =>
    intro b
    have h := ih (if x.demerits < b.demerits then x else b)
    rw [List.mem_cons] at h
    simp only [bestBP]
    rcases h with h | h
    · rw [h]
      split
      · exact List.mem_cons_of_mem _ (List.mem_cons_self _ _)
      · exact List.mem_cons_self _ _
    · exact List.mem_cons_of_mem _ (List.mem_cons_of_mem _ h)

theorem bestBP_le (t : List Breakpoint) :
    ∀ b x, x ∈ b :: t → (bestBP b t).demerits ≤ x.demerits := by
  induction t with
  | nil =>
    intro b x hx
    rw [List.mem_singleton] at hx
    rw [hx]
    exact le_refl _
  | cons y t ih =>
    intro b x hx
    simp only [bestBP]
    by_cases hlt : y.demerits < b.demerits
    · rw [if_pos hlt]
      rcases List.mem_cons.mp hx with h | h
      · rw [h]
        exact le_trans (ih y y (List.mem_cons_self y t)) (le_of_lt hlt)
      · exact ih y x h
    · rw [if_neg hlt]
      rcases List.mem_cons.mp hx with h | h
      · rw [h]
        exact ih b b (List.mem_cons_self b t)
      rcases List.mem_cons.mp h with h2 | h2
      · rw [h2]
        exact le_trans (ih b b (List.mem_cons_self b t)) (le_of_not_lt hlt)
      · exact ih b x (List.mem_cons_of_mem _ h2)

theorem sentinel_demerits : sentinel.demerits = 0 := rfl

theorem bestBP_sentinel (t : List Breakpoint) :
    ∀ b, (b = sentinel ∨ (0 < b.demerits ∧ sentinel ∈ t)) →
      (∀ x ∈ t, x = sentinel ∨ 0 < x.demerits) → bestBP b t = sentinel := by
  induction t with
  | nil =>
    intro b hb _
    rcases hb with h | ⟨_, h⟩
    · simpa [bestBP] using h
    · simp at h
  | cons y t ih =>
    intro b hb hall
    simp only [bestBP]
    have hy := hall y (List.mem_cons_self _ _)
    have hall' : ∀ x ∈ t, x = sentinel ∨ 0 < x.demerits := fun x hx =>
      hall x (List.mem_cons_of_mem _ hx)
    rcases hb with hbs | ⟨hbp, hsm⟩
    · rw [hbs]
      have hnlt : ¬y.demerits < sentinel.demerits := by
        rw [sentinel_demerits]
        rcases hy with h | h
        · rw [h, sentinel_demerits]
          exact lt_irrefl 0
        · exact not_lt_of_gt h
      rw [if_neg hnlt]
      exact ih sentinel (Or.inl rfl) hall'
    · rcases List.mem_cons.mp hsm with hys | hst
      · have hlt : y.demerits < b.demerits := by
          rw [← hys, sentinel_demerits]
          exact hbp
        rw [if_pos hlt]
        exact ih y (Or.inl hys.symm) hall'
      · have hb' : (if y.demerits < b.demerits then y else b) = sentinel ∨
            (0 < (if y.demerits < b.demerits then y else b).demerits ∧
              sentinel ∈ t) := by
          rcases hy with h | h
          · have hlt : y.demerits < b.demerits := by
              rw [h, sentinel_demerits]
              exact hbp
            rw [if_pos hlt]
            exact Or.inl h
          · right
            constructor
            · split
              · exact h
              · exact hbp
            · exact hst
        exact ih _ hb' hall'

theorem mem_firstOccsAux (l : List Nat) :
    ∀ (seen : List Nat) (a : Nat), a ∈ l →
      a ∈ firstOccsAux l seen ∨ a ∈ seen := by
  induction l with
  | nil =>
    intro seen a ha
    simp at ha
  | cons x xs ih =>
    intro seen a ha
    rw [firstOccsAux]
    by_cases hx : x ∈ seen
    · rw [if_pos hx]
      rcases List.mem_cons.mp ha with h | h
      · right
        rw [h]
        exact hx
      · exact ih seen a h
    · rw [if_neg hx]
      rcases List.mem_cons.mp ha with h | h
      · left
        rw [h]
        exact List.mem_cons_self _ _
      · rcases ih (x :: seen) a h with h1 | h1
        · exact Or.inl (List.mem_cons_of_mem _ h1)
        · rcases List.mem_cons.mp h1 with h2 | h2
          · left
            rw [h2]
            exact List.mem_cons_self _ _
          · exact Or.inr h2

theorem mem_firstOccs (l : List Nat) (a : Nat) (h : a ∈ l) :
    a ∈ firstOccs l := by
  rcases mem_firstOccsAux l [] a h with h1 | h1
  · exact h1
  · simp at h1

theorem prune_subset (l : List Breakpoint) :
    ∀ x ∈ pruneBreakpoints l, x ∈ l := by
  intro x hx
  rw [pruneBreakpoints, List.mem_filterMap] at hx
  obtain ⟨ln, _, hf⟩ := hx
  cases hfil : l.filter (fun bp => bp.line = ln) with
  | nil =>
    rw [hfil] at hf
    simp at hf
  | cons h t =>
    rw [hfil] at hf
    simp only [Option.some.injEq] at hf
    have hx' : x ∈ h :: t := by
      rw [← hf]
      exact bestBP_mem t h
    rw [← hfil] at hx'
    exact (List.mem_filter.mp hx').1

theorem prune_sentinel (l : List Breakpoint) (hs : sentinel ∈ l)
    (h0 : ∀ bp ∈ l, bp.line = 0 → bp = sentinel) :
    sentinel ∈ pruneBreakpoints l := by
  rw [pruneBreakpoints, List.mem_filterMap]
  refine ⟨0, ?_, ?_⟩
  · apply mem_firstOccs
    rw [List.mem_map]
    exact ⟨sentinel, hs, rfl⟩
  · cases hfil : l.filter (fun bp => bp.line = 0) with
    | nil =>
      exfalso
      have hmem : sentinel ∈ l.filter (fun bp => bp.line = 0) :=
        List.mem_filter.mpr ⟨hs, by decide⟩
      rw [hfil] at hmem
      simp at hmem
    | cons h t =>
      have hmem : bestBP h t ∈ l.filter (fun bp => bp.line = 0) := by
        rw [hfil]
        exact bestBP_mem t h
      have hline : (bestBP h t).line = 0 := by
        have := (List.mem_filter.mp hmem).2
        simpa using this
      have heq := h0 _ (List.mem_filter.mp hmem).1 hline
      show some (bestBP h t) = some sentinel
      rw [heq]

/-! ### Lemmas about one extension attempt -/

theorem demerits_node (p : Nat) (d r : ℚ) (l f : Nat) (q : Breakpoint) :
    (Breakpoint.node p d r l f q).demerits = d := rfl

theorem line_node (p : Nat) (d r : ℚ) (l f : Nat) (q : Breakpoint) :
    (Breakpoint.node p d r l f q).line = l := rfl

theorem position_node (p : Nat) (d r : ℚ) (l f : Nat) (q : Breakpoint) :
    (Breakpoint.node p d r l f q).position = p := rfl

theorem calculateBadness_nonneg (r tol : ℚ) : 0 ≤ calculateBadness r tol := by
  rw [calculateBadness]
  split
  · norm_num
  split
  · norm_num
  · positivity

theorem fitPenalty_nonneg (opts : KnuthPlassOptions) (f g : Nat) :
    0 ≤ fitPenalty opts f g := by
  rw [fitPenalty]
  split <;> norm_num

theorem usedPenalty_nonneg (opts : KnuthPlassOptions) (bx : Box)
    (hHP : 0 ≤ opts.HyphenPenalty) (hp : bx.penalty = 0) :
    0 ≤ usedPenalty opts bx := by
  rw [usedPenalty]
  split
  · exact hHP
  · rw [hp]

theorem tryBreak_shape (opts : KnuthPlassOptions) (boxes : List Box) (i : Nat)
    (bx : Box) (a bp : Breakpoint) (h : tryBreak opts boxes i bx a = some bp) :
    bp = Breakpoint.node (i + 1)
        (a.demerits +
          (opts.LinePenalty +
              calculateBadness (lineAdjr opts boxes a i) opts.Tolerance +
            usedPenalty opts bx) ^ 2 +
          fitPenalty opts (calculateFitness (lineAdjr opts boxes a i))
            a.fitness)
        (lineAdjr opts boxes a i) (a.line + 1)
        (calculateFitness (lineAdjr opts boxes a i)) a := by
  simp only [tryBreak] at h
  split at h
  · exact absurd h (by simp)
  · split at h
    · exact absurd h (by simp)
    · simp only [Option.some.injEq] at h
      exact h.symm

theorem tryBreak_demerits_pos (opts : KnuthPlassOptions) (boxes : List Box)
    (i : Nat) (bx : Box) (a bp : Breakpoint) (hLP : 0 < opts.LinePenalty)
    (hHP : 0 ≤ opts.HyphenPenalty) (hpen : bx.penalty = 0)
    (ha : 0 ≤ a.demerits) (h : tryBreak opts boxes i bx a = some bp) :
    0 < bp.demerits := by
  rw [tryBreak_shape opts boxes i bx a bp h, demerits_node]
  have hb := calculateBadness_nonneg (lineAdjr opts boxes a i) opts.Tolerance
  have hu := usedPenalty_nonneg opts bx hHP hpen
  have hf := fitPenalty_nonneg opts
    (calculateFitness (lineAdjr opts boxes a i)) a.fitness
  have hsq : 0 < (opts.LinePenalty +
      calculateBadness (lineAdjr opts boxes a i) opts.Tolerance +
      usedPenalty opts bx) ^ 2 :=
    pow_pos (by linarith) 2
  linarith

theorem tryBreak_line (opts : KnuthPlassOptions) (boxes : List Box) (i : Nat)
    (bx : Box) (a bp : Breakpoint) (h : tryBreak opts boxes i bx a = some bp) :
    bp.line = a.line + 1 := by
  rw [tryBreak_shape opts boxes i bx a bp h]
  rfl

theorem tryBreak_decr (opts : KnuthPlassOptions) (boxes : List Box) (i : Nat)
    (bx : Box) (a bp : Breakpoint) (ha : a.decr = true)
    (hpos : a.position ≤ i) (h : tryBreak opts boxes i bx a = some bp) :
    bp.decr = true ∧ bp.position = i + 1 := by
  rw [tryBreak_shape opts boxes i bx a bp h]
  refine ⟨?_, rfl⟩
  simp only [Breakpoint.decr, Bool.and_eq_true, decide_eq_true_eq]
  exact ⟨Nat.lt_succ_of_le hpos, ha⟩

/-! ### The sentinel invariant of the forward pass -/

theorem goodActive_nonneg (l : List Breakpoint) (hg : GoodActive l) :
    ∀ bp ∈ l, 0 ≤ bp.demerits := by
  intro bp hbp
  rcases hg.2.2 bp hbp with h | h
  · rw [h, sentinel_demerits]
  · exact le_of_lt h

theorem getElem?_mem_list {α : Type} (l : List α) (i : Nat) (a : α)
    (h : l[i]? = some a) : a ∈ l := by
  induction l generalizing i with
  | nil => simp at h
  | cons x xs ih =>
    cases i with
    | zero =>
      simp only [List.getElem?_cons_zero, Option.some.injEq] at h
      rw [← h]
      exact List.mem_cons_self _ _
    | succ j =>
      simp only [List.getElem?_cons_succ] at h
      exact List.mem_cons_of_mem _ (ih j h)

theorem kpStep_eq_none (opts : KnuthPlassOptions) (boxes : List Box)
    (active : List Breakpoint) (i : Nat) (hbx : boxes[i]? = none) :
    kpStep opts boxes active i = active := by
  rw [kpStep, hbx]

theorem kpStep_eq_some (opts : KnuthPlassOptions) (boxes : List Box)
    (active : List Breakpoint) (i : Nat) (bx : Box)
    (hbx : boxes[i]? = some bx) :
    kpStep opts boxes active i =
      if bx.isGlue = true then active
      else if (active.filterMap (tryBreak opts boxes i bx)).isEmpty = true then
        active
      else pruneBreakpoints (active ++ active.filterMap (tryBreak opts boxes i bx)) := by
  rw [kpStep, hbx]

theorem kpStep_good (opts : KnuthPlassOptions) (boxes : List Box)
    (active : List Breakpoint) (i : Nat) (hLP : 0 < opts.LinePenalty)
    (hHP : 0 ≤ opts.HyphenPenalty) (hpen : ∀ b ∈ boxes, b.penalty = 0)
    (hg : GoodActive active) : GoodActive (kpStep opts boxes active i) := by
  cases hbx : boxes[i]? with
  | none =>
    rw [kpStep_eq_none opts boxes active i hbx]
    exact hg
  | some bx =>
    rw [kpStep_eq_some opts boxes active i bx hbx]
    by_cases hglue : bx.isGlue = true
    · rw [if_pos hglue]
      exact hg
    rw [if_neg hglue]
    by_cases hempty : (active.filterMap (tryBreak opts boxes i bx)).isEmpty = true
    · rw [if_pos hempty]
      exact hg
    rw [if_neg hempty]
    have hnew : ∀ bp ∈ active.filterMap (tryBreak opts boxes i bx),
        bp.line ≠ 0 ∧ 0 < bp.demerits := by
      intro bp hbp
      rw [List.mem_filterMap] at hbp
      obtain ⟨a, ha, htb⟩ := hbp
      constructor
      · rw [tryBreak_line opts boxes i bx a bp htb]
        simp
      · exact tryBreak_demerits_pos opts boxes i bx a bp hLP hHP
          (hpen bx (getElem?_mem_list boxes i bx hbx))
          (goodActive_nonneg active hg a ha) htb
    have happ : GoodActive (active ++ active.filterMap (tryBreak opts boxes i bx)) := by
      refine ⟨List.mem_append_left _ hg.1, ?_, ?_⟩
      · intro bp hbp h0
        rcases List.mem_append.mp hbp with h | h
        · exact hg.2.1 bp h h0
        · exact absurd h0 (hnew bp h).1
      · intro bp hbp
        rcases List.mem_append.mp hbp with h | h
        · exact hg.2.2 bp h
        · exact Or.inr (hnew bp h).2
    refine ⟨prune_sentinel _ happ.1 happ.2.1, ?_, ?_⟩
    · intro bp hbp h0
      exact happ.2.1 bp (prune_subset _ bp hbp) h0
    · intro bp hbp
      exact happ.2.2 bp (prune_subset _ bp hbp)

theorem kpActiveAfter_zero (opts : KnuthPlassOptions) (boxes : List Box) :
    kpActiveAfter opts boxes 0 = [sentinel] := by
  rw [kpActiveAfter]
  simp

theorem kpActiveAfter_succ (opts : KnuthPlassOptions) (boxes : List Box)
    (k : Nat) :
    kpActiveAfter opts boxes (k + 1) =
      if k < boxes.length then
        kpStep opts boxes (kpActiveAfter opts boxes k) k
      else kpActiveAfter opts boxes k := by
  rw [kpActiveAfter, kpActiveAfter, List.take_succ]
  by_cases hk : k < boxes.length
  · rw [if_pos hk, List.getElem?_range hk]
    simp
  · rw [if_neg hk]
    have hnone : (List.range boxes.length)[k]? = none := by
      rw [List.getElem?_eq_none]
      simpa using le_of_not_lt hk
    rw [hnone]
    simp

theorem goodActive_init : GoodActive [sentinel] := by
  refine ⟨List.mem_singleton_self _, ?_, ?_⟩
  · intro bp hbp _
    rw [List.mem_singleton] at hbp
    exact hbp
  · intro bp hbp
    rw [List.mem_singleton] at hbp
    exact Or.inl hbp

theorem kpActiveAfter_good (opts : KnuthPlassOptions) (boxes : List Box)
    (hLP : 0 < opts.LinePenalty) (hHP : 0 ≤ opts.HyphenPenalty)
    (hpen : ∀ b ∈ boxes, b.penalty = 0) (k : Nat) :
    GoodActive (kpActiveAfter opts boxes k) := by
  induction k with
  | zero =>
    rw [kpActiveAfter_zero]
    exact goodActive_init
  | succ k ih =>
    rw [kpActiveAfter_succ]
    split
    · exact kpStep_good opts boxes _ k hLP hHP hpen ih
    · exact ih

theorem argmin_sentinel (l : List Breakpoint) (hg : GoodActive l) :
    argminBP l = some sentinel := by
  obtain ⟨hs, h0, hpos⟩ := hg
  cases l with
  | nil => simp at hs
  | cons h t =>
    show some (bestBP h t) = some sentinel
    congr 1
    apply bestBP_sentinel
    · rcases List.mem_cons.mp hs with hh | hh
      · exact Or.inl hh.symm
      · rcases hpos h (List.mem_cons_self _ _) with h1 | h1
        · exact Or.inl h1
        · exact Or.inr ⟨h1, hh⟩
    · intro x hx
      exact hpos x (List.mem_cons_of_mem _ hx)

theorem sentinel_btk : sentinel.btk = [] := rfl

theorem findOptimal_nil (opts : KnuthPlassOptions) (boxes : List Box)
    (hLP : 0 < opts.LinePenalty) (hHP : 0 ≤ opts.HyphenPenalty)
    (hpen : ∀ b ∈ boxes, b.penalty = 0) :
    findOptimalBreakpoints opts boxes = [] := by
  rw [findOptimalBreakpoints]
  by_cases hb : boxes.isEmpty
  · rw [if_pos hb]
  · rw [if_neg hb,
      argmin_sentinel _ (kpActiveAfter_good opts boxes hLP hHP hpen boxes.length)]
    exact sentinel_btk

/-! ### The decreasing-chain invariant and the backtracked list -/

theorem btk_bounds (bp : Breakpoint) (h : bp.decr = true) :
    List.Chain' (· < ·) bp.btk ∧ ∀ p ∈ bp.btk, 0 < p ∧ p ≤ bp.position := by
  induction bp with
  | root p d r l f =>
    constructor
    · rw [Breakpoint.btk]
      split <;> simp
    · intro q hq
      rw [Breakpoint.btk] at hq
      split at hq
      · rw [List.mem_singleton] at hq
        rw [hq]
        constructor
        · assumption
        · exact le_refl _
      · simp at hq
  | node p d r l f q ih =>
    rw [Breakpoint.decr, Bool.and_eq_true, decide_eq_true_eq] at h
    obtain ⟨hlt, hdec⟩ := h
    obtain ⟨ihc, ihb⟩ := ih hdec
    constructor
    · rw [Breakpoint.btk, List.chain'_append]
      refine ⟨ihc, ?_, ?_⟩
      · split <;> simp
      · intro x hx y hy
        have hxmem : x ∈ q.btk := by
          obtain ⟨hne2, hxe⟩ := List.mem_getLast?_eq_getLast hx
          rw [hxe]
          exact List.getLast_mem hne2
        have hyp : p = y := by
          by_cases hp : 0 < p
          · rw [if_pos hp] at hy
            simpa using hy
          · rw [if_neg hp] at hy
            simp at hy
        rw [← hyp]
        exact lt_of_le_of_lt (ihb x hxmem).2 hlt
    · intro z hz
      rw [Breakpoint.btk, List.mem_append] at hz
      rw [position_node]
      rcases hz with h1 | h1
      · obtain ⟨hz1, hz2⟩ := ihb z h1
        exact ⟨hz1, le_of_lt (lt_of_le_of_lt hz2 hlt)⟩
      · by_cases hp : 0 < p
        · rw [if_pos hp, List.mem_singleton] at h1
          rw [h1]
          exact ⟨hp, le_refl _⟩
        · rw [if_neg hp] at h1
          simp at h1

theorem kpStep_decr (opts : KnuthPlassOptions) (boxes : List Box)
    (active : List Breakpoint) (i : Nat) (hd : DecrBound i active) :
    DecrBound (i + 1) (kpStep opts boxes active i) := by
  have hweak : ∀ bp ∈ active, bp.decr = true ∧ bp.position ≤ i + 1 :=
    fun bp hbp => ⟨(hd bp hbp).1, Nat.le_succ_of_le (hd bp hbp).2⟩
  cases hbx : boxes[i]? with
  | none =>
    rw [kpStep_eq_none opts boxes active i hbx]
    exact hweak
  | some bx =>
    rw [kpStep_eq_some opts boxes active i bx hbx]
    by_cases hglue : bx.isGlue = true
    · rw [if_pos hglue]
      exact hweak
    rw [if_neg hglue]
    by_cases hempty : (active.filterMap (tryBreak opts boxes i bx)).isEmpty = true
    · rw [if_pos hempty]
      exact hweak
    rw [if_neg hempty]
    intro bp hbp
    have hbp' := prune_subset _ bp hbp
    rcases List.mem_append.mp hbp' with h1 | h1
    · exact hweak bp h1
    · rw [List.mem_filterMap] at h1
      obtain ⟨a, ha, htb⟩ := h1
      obtain ⟨hdec, hpos⟩ :=
        tryBreak_decr opts boxes i bx a bp (hd a ha).1 (hd a ha).2 htb
      exact ⟨hdec, le_of_eq hpos⟩

theorem kpActiveAfter_decr (opts : KnuthPlassOptions) (boxes : List Box)
    (k : Nat) : DecrBound k (kpActiveAfter opts boxes k) := by
  induction k with
  | zero =>
    rw [kpActiveAfter_zero]
    intro bp hbp
    rw [List.mem_singleton] at hbp
    rw [hbp]
    exact ⟨rfl, le_refl _⟩
  | succ k ih =>
    rw [kpActiveAfter_succ]
    split
    · exact kpStep_decr opts boxes _ k ih
    · exact fun bp hbp => ⟨(ih bp hbp).1, Nat.le_succ_of_le (ih bp hbp).2⟩

/-! ### Lemmas about the fragment builder -/

theorem textToBoxesGo_penalty (measure : Char → ℚ) (n : Nat) :
    ∀ (parts : List (List Char)) (i pos : Nat) (b : Box),
      b ∈ textToBoxesGo measure n parts i pos → b.penalty = 0 := by
  intro parts
  induction parts with
  | nil =>
    intro i pos b hb
    simp [textToBoxesGo] at hb
  | cons part rest ih =>
    intro i pos b hb
    rw [textToBoxesGo] at hb
    by_cases he : part.isEmpty = true
    · rw [if_pos he] at hb
      exact ih _ _ _ hb
    rw [if_neg he] at hb
    by_cases hi : i < n - 1
    · rw [if_pos hi] at hb
      rcases List.mem_cons.mp hb with h | h
      · rw [h]
      rcases List.mem_cons.mp h with h2 | h2
      · rw [h2]
      · exact ih _ _ _ h2
    · rw [if_neg hi] at hb
      rcases List.mem_cons.mp hb with h | h
      · rw [h]
      · exact ih _ _ _ h

theorem textToBoxes_penalty (measure : Char → ℚ) (text : List Char) :
    ∀ b ∈ textToBoxes measure text, b.penalty = 0 := by
  intro b hb
  exact textToBoxesGo_penalty measure _ _ _ _ b hb

theorem splitOnSpace_spaces (t : List Char) (h : ∀ c ∈ t, c = ' ') :
    ∀ part ∈ splitOnSpace t, part = [] := by
  induction t with
  | nil =>
    intro part hp
    rw [splitOnSpace, List.mem_singleton] at hp
    exact hp
  | cons c rest ih =>
    intro part hp
    have hc : c = ' ' := h c (List.mem_cons_self _ _)
    rw [splitOnSpace, if_pos hc] at hp
    rcases List.mem_cons.mp hp with h1 | h1
    · exact h1
    · exact ih (fun x hx => h x (List.mem_cons_of_mem _ hx)) part h1

theorem textToBoxesGo_empty (measure : Char → ℚ) (n : Nat) :
    ∀ (parts : List (List Char)) (i pos : Nat),
      (∀ p ∈ parts, p = []) → textToBoxesGo measure n parts i pos = [] := by
  intro parts
  induction parts with
  | nil => intro i pos _; rfl
  | cons part rest ih =>
    intro i pos h
    have hpe : part = [] := h part (List.mem_cons_self _ _)
    rw [textToBoxesGo, hpe]
    rw [if_pos (by rfl : (List.isEmpty ([] : List Char)) = true)]
    exact ih _ _ (fun p hp => h p (List.mem_cons_of_mem _ hp))

theorem textToBoxes_spaces (measure : Char → ℚ) (t : List Char)
    (h : ∀ c ∈ t, c = ' ') : textToBoxes measure t = [] := by
  rw [textToBoxes]
  exact textToBoxesGo_empty measure _ _ 0 0 (splitOnSpace_spaces t h)

theorem splitOnSpace_exists (t : List Char) (c : Char) (hc : c ∈ t)
    (hns : c ≠ ' ') : ∃ part ∈ splitOnSpace t, part ≠ [] := by
  induction t with
  | nil => simp at hc
  | cons d rest ih =>
    rcases List.mem_cons.mp hc with h | h
    · rw [h] at hns
      rw [splitOnSpace, if_neg hns]
      cases hsp : splitOnSpace rest with
      | nil => exact ⟨[d], by simp, by simp⟩
      | cons hh tt => exact ⟨d :: hh, by simp, by simp⟩
    · obtain ⟨part, hp, hne⟩ := ih h
      rw [splitOnSpace]
      by_cases hd : d = ' '
      · rw [if_pos hd]
        exact ⟨part, List.mem_cons_of_mem _ hp, hne⟩
      · rw [if_neg hd]
        cases hsp : splitOnSpace rest with
        | nil =>
          rw [hsp] at hp
          simp at hp
        | cons hh tt =>
          rw [hsp] at hp
          rcases List.mem_cons.mp hp with h1 | h1
          · exact ⟨d :: hh, by simp, by simp⟩
          · exact ⟨part, List.mem_cons_of_mem _ h1, hne⟩

theorem textToBoxesGo_ne (measure : Char → ℚ) (n : Nat) :
    ∀ (parts : List (List Char)) (i pos : Nat),
      (∃ p ∈ parts, p ≠ []) → textToBoxesGo measure n parts i pos ≠ [] := by
  intro parts
  induction parts with
  | nil =>
    intro i pos h
    simp at h
  | cons part rest ih =>
    intro i pos h
    rw [textToBoxesGo]
    by_cases he : part.isEmpty = true
    · rw [if_pos he]
      apply ih
      obtain ⟨p, hp, hne⟩ := h
      rcases List.mem_cons.mp hp with h1 | h1
      · exfalso
        apply hne
        rw [h1]
        exact List.isEmpty_iff.mp he
      · exact ⟨p, h1, hne⟩
    · rw [if_neg he]
      split <;> simp

theorem textToBoxes_ne (measure : Char → ℚ) (t : List Char)
    (h : ∃ c ∈ t, c ≠ ' ') : (textToBoxes measure t).isEmpty = false := by
  obtain ⟨c, hc, hns⟩ := h
  obtain ⟨part, hp, hne⟩ := splitOnSpace_exists t c hc hns
  rw [List.isEmpty_eq_false_iff_exists_mem]
  rw [textToBoxes]
  cases hbx : textToBoxesGo measure (splitOnSpace t).length (splitOnSpace t) 0 0 with
  | nil =>
    exact absurd hbx
      (textToBoxesGo_ne measure _ (splitOnSpace t) 0 0 ⟨part, hp, hne⟩)
  | cons b bs => exact ⟨b, List.mem_cons_self _ _⟩

/-! ### Width bound of the greedy wrapper -/

theorem wrapFold_bound (measure : Char → ℚ) (maxWidth : ℚ) :
    ∀ (il : List (Nat × List Char)) (st : WrapState),
      (∀ p ∈ il, Width measure p.2 ≤ maxWidth) →
      (∀ l ∈ st.lines, l.Width ≤ maxWidth) → st.currentWidth ≤ maxWidth →
      (∀ l ∈ (il.foldl (wrapStep measure maxWidth) st).lines,
          l.Width ≤ maxWidth) ∧
        (il.foldl (wrapStep measure maxWidth) st).currentWidth ≤ maxWidth := by
  intro il
  induction il with
  | nil =>
    intro st _ h1 h2
    exact ⟨h1, h2⟩
  | cons p rest ih =>
    intro st hg h1 h2
    rw [List.foldl_cons]
    have hgp : Width measure p.2 ≤ maxWidth := hg p (List.mem_cons_self _ _)
    apply ih
    · intro q hq
      exact hg q (List.mem_cons_of_mem _ hq)
    · intro l hl
      rw [wrapStep] at hl
      split at hl
      · simp only [WrapState.lines] at hl
        rcases List.mem_append.mp hl with h | h
        · exact h1 l h
        · rw [List.mem_singleton] at h
          rw [h]
          exact h2
      · exact h1 l hl
    · rw [wrapStep]
      split
      · exact hgp
      · simp only [WrapState.currentWidth]
        rename_i hc
        rw [not_and_or] at hc
        rcases hc with hc | hc
        · exact le_of_not_lt hc
        · have : st.currentWidth ≤ 0 := le_of_not_lt hc
          linarith

theorem Wrap_bound (measure : Char → ℚ) (graphemes : List (List Char))
    (text : List Char) (maxWidth : ℚ) (hMW : 0 < maxWidth)
    (hg : ∀ g ∈ graphemes, Width measure g ≤ maxWidth) :
    ∀ l ∈ Wrap measure graphemes text maxWidth, l.Width ≤ maxWidth := by
  intro l hl
  rw [Wrap, if_neg (not_le.mpr hMW)] at hl
  have hg' : ∀ p ∈ graphemes.enum, Width measure p.2 ≤ maxWidth := by
    intro p hp
    apply hg
    have : p.2 ∈ graphemes.enum.map Prod.snd := List.mem_map_of_mem Prod.snd hp
    rw [List.enum_map_snd] at this
    exact this
  obtain ⟨h1, h2⟩ := wrapFold_bound measure maxWidth graphemes.enum
    ⟨[], [], 0, 0⟩ hg' (by intro x hx; simp at hx) (le_of_lt hMW)
  set st := graphemes.enum.foldl (wrapStep measure maxWidth) ⟨[], [], 0, 0⟩
  by_cases he : st.currentLine.isEmpty = true
  · rw [if_pos he] at hl
    exact h1 l hl
  · rw [if_neg he] at hl
    rcases List.mem_append.mp hl with h | h
    · exact h1 l h
    · rw [List.mem_singleton] at h
      rw [h]
      exact h2

/-! ### Assembly lemmas for WrapKnuthPlass -/

theorem WrapKnuthPlass_empty (measure : Char → ℚ)
    (graphemes : List (List Char)) (text : List Char)
    (opts : KnuthPlassOptions) (hne : (textToBoxes measure text).isEmpty = true) :
    WrapKnuthPlass measure graphemes text opts = [] := by
  rw [WrapKnuthPlass]
  simp only [hne, if_true]

theorem WrapKnuthPlass_eq_Wrap (measure : Char → ℚ)
    (graphemes : List (List Char)) (text : List Char)
    (opts : KnuthPlassOptions)
    (hne : (textToBoxes measure text).isEmpty = false)
    (hfo : findOptimalBreakpoints opts (textToBoxes measure text) = []) :
    WrapKnuthPlass measure graphemes text opts =
      Wrap measure graphemes text opts.MaxWidth := by
  rw [WrapKnuthPlass]
  simp only [hne, hfo, Bool.false_eq_true, if_false, List.isEmpty_nil, if_true]

theorem Wrap_nonpos (measure : Char → ℚ) (graphemes : List (List Char))
    (text : List Char) (maxWidth : ℚ) (hMW : maxWidth ≤ 0) :
    Wrap measure graphemes text maxWidth =
      [⟨text, Width measure text, 0, text.length⟩] := by
  rw [Wrap, if_pos hMW]

/-! ### Claim theorems -/

/-- Claim C1, corrected.  The final selection is indeed an active candidate of
globally minimal cumulative demerits, and the backtracked break-position list
is strictly increasing with every position above 0 and at most the fragment
count.  But the list can be empty (the zero-demerit sentinel may be — and in
practice always is — selected), and its last position need not cover the
entire fragment sequence; those two parts of the claim are refuted by
`kp_backtrack_props_cex`. -/
theorem kp_backtrack_props (opts : KnuthPlassOptions) (boxes : List Box)
    (hword : ∃ b ∈ boxes, b.isGlue = false)
    (hactive : ∀ k ∈ List.range (boxes.length + 1),
      (kpActiveAfter opts boxes k).isEmpty = false) :
    (∃ best, argminBP (kpActiveAfter opts boxes boxes.length) = some best ∧
        (∀ bp ∈ kpActiveAfter opts boxes boxes.length,
          best.demerits ≤ bp.demerits) ∧
        findOptimalBreakpoints opts boxes = best.btk) ∧
      List.Chain' (· < ·) (findOptimalBreakpoints opts boxes) ∧
      ∀ p ∈ findOptimalBreakpoints opts boxes, 0 < p ∧ p ≤ boxes.length := by
  have hne : boxes.isEmpty = false := by
    obtain ⟨b, hb, -⟩ := hword
    cases boxes with
    | nil => simp at hb
    | cons x xs => rfl
  cases hact : kpActiveAfter opts boxes boxes.length with
  | nil =>
    exfalso
    have hmem : boxes.length ∈ List.range (boxes.length + 1) := by
      rw [List.mem_range]
      exact Nat.lt_succ_self _
    have := hactive boxes.length hmem
    rw [hact] at this
    simp at this
  | cons h t =>
    have hbest_mem : bestBP h t ∈ h :: t := bestBP_mem t h
    have hdecr := kpActiveAfter_decr opts boxes boxes.length
    rw [hact] at hdecr
    obtain ⟨hd, hple⟩ := hdecr _ hbest_mem
    have hfo : findOptimalBreakpoints opts boxes = (bestBP h t).btk := by
      rw [findOptimalBreakpoints, if_neg (by rw [hne]; simp), hact]
      rfl
    obtain ⟨hchain, hbounds⟩ := btk_bounds _ hd
    refine ⟨⟨bestBP h t, ?_, ?_, hfo⟩, ?_, ?_⟩
    · rfl
    · intro bp hbp
      exact bestBP_le t h bp hbp
    · rw [hfo]
      exact hchain
    · rw [hfo]
      intro p hp
      obtain ⟨h1, h2⟩ := hbounds p hp
      exact ⟨h1, le_trans h2 hple⟩

/-- Claim C1's counterexample: for the fragments of `"a b"` at width 20 with
default options, the fragment sequence contains a word fragment and the
active set is never empty during the forward pass, yet the backtracked
break-position list is empty — not non-empty, and not covering the fragment
sequence. -/
theorem kp_backtrack_props_cex :
    (∃ b ∈ boxesAB, b.isGlue = false) ∧
      (∀ k ∈ List.range (boxesAB.length + 1),
        (kpActiveAfter opts20 boxesAB k).isEmpty = false) ∧
      findOptimalBreakpoints opts20 boxesAB = [] := by decide

theorem kp_backtrack_props_witness :
    (∃ best, argminBP (kpActiveAfter opts20 boxesAB boxesAB.length) = some best ∧
        (∀ bp ∈ kpActiveAfter opts20 boxesAB boxesAB.length,
          best.demerits ≤ bp.demerits) ∧
        findOptimalBreakpoints opts20 boxesAB = best.btk) ∧
      List.Chain' (· < ·) (findOptimalBreakpoints opts20 boxesAB) ∧
      ∀ p ∈ findOptimalBreakpoints opts20 boxesAB, 0 < p ∧ p ≤ boxesAB.length :=
  kp_backtrack_props opts20 boxesAB (by decide) (by decide)

/-- Claim C2, corrected.  Whenever the fragment sequence is non-empty and the
options have `LinePenalty > 0` and `HyphenPenalty ≥ 0`, every non-sentinel
candidate carries strictly positive demerits, the zero-demerit sentinel wins
the final selection, the break-position list is empty and `WrapKnuthPlass`
returns exactly the greedy `Wrap` at the same `MaxWidth`.  The claim's
universal quantification over *every* input text fails only on texts with no
word fragment (`kp_always_greedy_cex`): there `WrapKnuthPlass` returns the
empty list while greedy `Wrap` can return a whitespace line. -/
theorem kp_always_greedy (measure : Char → ℚ) (graphemes : List (List Char))
    (text : List Char) (opts : KnuthPlassOptions)
    (hLP : 0 < opts.LinePenalty) (hHP : 0 ≤ opts.HyphenPenalty)
    (hne : (textToBoxes measure text).isEmpty = false) :
    findOptimalBreakpoints opts (textToBoxes measure text) = [] ∧
      WrapKnuthPlass measure graphemes text opts =
        Wrap measure graphemes text opts.MaxWidth := by
  have hfo := findOptimal_nil opts (textToBoxes measure text) hLP hHP
    (textToBoxes_penalty measure text)
  exact ⟨hfo, WrapKnuthPlass_eq_Wrap measure graphemes text opts hne hfo⟩

/-- Claim C2's counterexample: for the all-space text `" "` (options with
`LinePenalty = 10 > 0`, `HyphenPenalty = 50 ≥ 0`, `MaxWidth = 10`),
`WrapKnuthPlass` returns no lines while the greedy `Wrap` returns one
whitespace line, so the two line lists differ. -/
theorem kp_always_greedy_cex :
    0 < opts10.LinePenalty ∧ 0 ≤ opts10.HyphenPenalty ∧
      WrapKnuthPlass asciiM (singletons tSP) tSP opts10 = [] ∧
      Wrap asciiM (singletons tSP) tSP opts10.MaxWidth =
        [⟨[' '], 1, 0, 1⟩] := by decide

theorem kp_always_greedy_witness :
    findOptimalBreakpoints opts20 (textToBoxes asciiM tAB) = [] ∧
      WrapKnuthPlass asciiM (singletons tAB) tAB opts20 =
        Wrap asciiM (singletons tAB) tAB opts20.MaxWidth :=
  kp_always_greedy asciiM (singletons tAB) tAB opts20 (by decide) (by decide)
    (by decide)

/-- Claim C3, a code bug.  For the text `"a  b"` (two consecutive spaces),
the Fragment Builder records position 2 for the word `"b"`, but the word
starts at rune index 3 of the original text (index 2 holds the second
space): the skipped empty token does not advance the running position,
contradicting the documented meaning of the field ("starting position in the
original text"). -/
theorem boxes_position_bug :
    textToBoxes asciiM t2SP =
      [⟨['a'], 1, 0, false, 0⟩, ⟨[' '], 1, 1, true, 0⟩,
        ⟨['b'], 1, 2, false, 0⟩] ∧
      t2SP[2]? = some ' ' ∧ t2SP[3]? = some 'b' := by decide

/-- Claim C4, corrected.  Under `LinePenalty > 0`, `HyphenPenalty ≥ 0`,
`MaxWidth > 0` and `Tolerance ≥ 0`, and provided every grapheme cluster fits
in `MaxWidth`, every returned line's width is at most
`MaxWidth * (1 + Tolerance)` (in fact at most `MaxWidth`, since the output
comes from the greedy fallback).  The claim's assertion that an overwide
fragment is returned verbatim as its own line — and that no line ever splits
a fragment — is refuted by `kp_width_bound_cex`: the greedy fallback splits
fragments at grapheme boundaries. -/
theorem kp_width_bound (measure : Char → ℚ) (graphemes : List (List Char))
    (text : List Char) (opts : KnuthPlassOptions)
    (hLP : 0 < opts.LinePenalty) (hHP : 0 ≤ opts.HyphenPenalty)
    (hMW : 0 < opts.MaxWidth) (hTol : 0 ≤ opts.Tolerance)
    (hg : ∀ g ∈ graphemes, Width measure g ≤ opts.MaxWidth) :
    ∀ l ∈ WrapKnuthPlass measure graphemes text opts,
      l.Width ≤ opts.MaxWidth * (1 + opts.Tolerance) := by
  intro l hl
  have hbound : l.Width ≤ opts.MaxWidth := by
    cases hne : (textToBoxes measure text).isEmpty with
    | true =>
      rw [WrapKnuthPlass_empty measure graphemes text opts hne] at hl
      simp at hl
    | false =>
      have hfo := findOptimal_nil opts (textToBoxes measure text) hLP hHP
        (textToBoxes_penalty measure text)
      rw [WrapKnuthPlass_eq_Wrap measure graphemes text opts hne hfo] at hl
      exact Wrap_bound measure graphemes text opts.MaxWidth hMW hg l hl
  have hmul : opts.MaxWidth ≤ opts.MaxWidth * (1 + opts.Tolerance) := by
    nlinarith
  linarith

/-- Claim C4's counterexample: the single fragment `"abcdef"` (width 6) is
wider than `MaxWidth = 3`, yet `WrapKnuthPlass` does not return it verbatim
as one overflowing line — the greedy fallback splits the fragment across two
lines. -/
theorem kp_width_bound_cex :
    textToBoxes asciiM tABCDEF = [⟨tABCDEF, 6, 0, false, 0⟩] ∧
      opts3.MaxWidth < 6 ∧
      WrapKnuthPlass asciiM (singletons tABCDEF) tABCDEF opts3 =
        [⟨['a', 'b', 'c'], 3, 0, 3⟩, ⟨['d', 'e', 'f'], 3, 3, 6⟩] := by decide

theorem kp_width_bound_witness :
    lineAB.Width ≤ opts3.MaxWidth * (1 + opts3.Tolerance) :=
  kp_width_bound asciiM (singletons tAB) tAB opts3 (by decide) (by decide)
    (by decide) (by decide) (by decide) lineAB (by decide)

/-- Claim C5, confirmed.  For empty or all-space input (no word fragments)
`WrapKnuthPlass` returns the empty line list without error, and when the
fragment sequence is non-empty but the breakpoint search yields no break
positions it returns exactly the greedy first-fit `Wrap` of the whole input
at the same `MaxWidth`. -/
theorem kp_degenerate_spec (measure : Char → ℚ) (graphemes : List (List Char))
    (text : List Char) (opts : KnuthPlassOptions) :
    ((∀ c ∈ text, c = ' ') → WrapKnuthPlass measure graphemes text opts = []) ∧
      ((textToBoxes measure text).isEmpty = false →
        findOptimalBreakpoints opts (textToBoxes measure text) = [] →
        WrapKnuthPlass measure graphemes text opts =
          Wrap measure graphemes text opts.MaxWidth) := by
  constructor
  · intro h
    apply WrapKnuthPlass_empty
    rw [textToBoxes_spaces measure text h]
    rfl
  · intro h1 h2
    exact WrapKnuthPlass_eq_Wrap measure graphemes text opts h1 h2

theorem kp_degenerate_spec_witness :
    WrapKnuthPlass asciiM (singletons tSP) tSP opts10 = [] ∧
      WrapKnuthPlass asciiM (singletons tAB) tAB opts20 =
        Wrap asciiM (singletons tAB) tAB opts20.MaxWidth :=
  ⟨(kp_degenerate_spec asciiM (singletons tSP) tSP opts10).1 (by decide),
    (kp_degenerate_spec asciiM (singletons tAB) tAB opts20).2 (by decide)
      (by decide)⟩

/-- Claim C6, corrected.  For input containing at least one non-space
character, options with `MaxWidth ≤ 0` (and `LinePenalty > 0`,
`HyphenPenalty ≥ 0`, which make the final selection independent of the
unspecified map iteration order of the pruning step) return the whole
paragraph as a single unbroken line of its natural measured width.  The
claim's quantification over *every* non-empty text fails for all-space text
(`kp_nonpos_maxwidth_cex`), where the empty list is returned instead. -/
theorem kp_nonpos_maxwidth (measure : Char → ℚ) (graphemes : List (List Char))
    (text : List Char) (opts : KnuthPlassOptions)
    (hw : ∃ c ∈ text, c ≠ ' ') (hMW : opts.MaxWidth ≤ 0)
    (hLP : 0 < opts.LinePenalty) (hHP : 0 ≤ opts.HyphenPenalty) :
    WrapKnuthPlass measure graphemes text opts =
      [⟨text, Width measure text, 0, text.length⟩] := by
  have hne := textToBoxes_ne measure text hw
  have hfo := findOptimal_nil opts (textToBoxes measure text) hLP hHP
    (textToBoxes_penalty measure text)
  rw [WrapKnuthPlass_eq_Wrap measure graphemes text opts hne hfo]
  exact Wrap_nonpos measure graphemes text opts.MaxWidth hMW

/-- Claim C6's counterexample: the non-empty all-space text `" "` with
`MaxWidth = -1` yields the empty line list, not a single line holding the
whole paragraph. -/
theorem kp_nonpos_maxwidth_cex :
    tSP ≠ [] ∧ optsNeg.MaxWidth ≤ 0 ∧
      WrapKnuthPlass asciiM (singletons tSP) tSP optsNeg = [] := by decide

theorem kp_nonpos_maxwidth_witness :
    WrapKnuthPlass asciiM (singletons tA) tA optsNeg =
      [⟨tA, Width asciiM tA, 0, tA.length⟩] :=
  kp_nonpos_maxwidth asciiM (singletons tA) tA optsNeg (by decide) (by decide)
    (by decide) (by decide)

/-- Claim C7, confirmed.  The badness function returns 10000 when the
adjustment ratio is below -1 or above the tolerance and `100 * |ratio|^3`
otherwise; in particular the four literal cases of the claim hold. -/
theorem badness_spec (r tol : ℚ) :
    ((r < -1 ∨ tol < r) → calculateBadness r tol = 10000) ∧
      (-1 ≤ r → r ≤ tol → calculateBadness r tol = 100 * |r| ^ 3) ∧
      10000 ≤ calculateBadness (-(3 / 2)) 1 ∧
      10000 ≤ calculateBadness 2 1 ∧
      calculateBadness 0 1 < 10000 ∧
      calculateBadness (-(3 / 10)) 1 < 10000 := by
  refine ⟨?_, ?_, by decide, by decide, by decide, by decide⟩
  · intro h
    rw [calculateBadness]
    rcases h with h | h
    · rw [if_pos h]
    · by_cases h1 : r < -1
      · rw [if_pos h1]
      · rw [if_neg h1, if_pos h]
  · intro h1 h2
    rw [calculateBadness, if_neg (not_lt.mpr h1), if_neg (not_lt.mpr h2)]

theorem badness_spec_witness :
    ((-2 : ℚ) < -1 ∨ (1 : ℚ) < -2) ∧ calculateBadness (-2) 1 = 10000 :=
  ⟨Or.inl (by norm_num), (badness_spec (-2) 1).1 (Or.inl (by norm_num))⟩

/-- Claim C8, confirmed.  The fitness classification is 0 (tight) below
-0.5, 1 (normal) on [-0.5, 0.5], 2 (loose) on (0.5, 1], and 3 (very loose)
above 1; the boundary -0.5 classifies as normal. -/
theorem fitness_spec (r : ℚ) :
    (r < -(1 / 2) → calculateFitness r = 0) ∧
      (-(1 / 2) ≤ r → r ≤ 1 / 2 → calculateFitness r = 1) ∧
      (1 / 2 < r → r ≤ 1 → calculateFitness r = 2) ∧
      (1 < r → calculateFitness r = 3) ∧
      calculateFitness (-(1 / 2)) = 1 := by
  refine ⟨?_, ?_, ?_, ?_, by decide⟩
  · intro h
    rw [calculateFitness, if_pos h]
  · intro h1 h2
    rw [calculateFitness, if_neg (not_lt.mpr h1), if_pos h2]
  · intro h1 h2
    have hn1 : ¬r < -(1 / 2) := by linarith
    have hn2 : ¬r ≤ 1 / 2 := not_le.mpr h1
    rw [calculateFitness, if_neg hn1, if_neg hn2, if_pos h2]
  · intro h1
    have hn1 : ¬r < -(1 / 2) := by linarith
    have hn2 : ¬r ≤ 1 / 2 := by linarith
    have hn3 : ¬r ≤ 1 := not_le.mpr h1
    rw [calculateFitness, if_neg hn1, if_neg hn2, if_neg hn3]

theorem fitness_spec_witness :
    (-(1 / 2) : ℚ) ≤ -(1 / 2) ∧ ((-(1 / 2) : ℚ) ≤ 1 / 2) ∧
      calculateFitness (-(1 / 2)) = 1 :=
  ⟨le_refl _, by norm_num,
    (fitness_spec (-(1 / 2))).2.1 (le_refl _) (by norm_num)⟩

/-- Claim C9, confirmed.  Every candidate emitted by the breakpoint search
carries the predecessor's cumulative demerits plus
`(linePenalty + badness + breakPenalty)^2`, plus a fixed extra 100 demerits
exactly when fitness-class checking is enabled and the new line's fitness
class differs from the predecessor's by more than one ordinal step. -/
theorem demerits_formula (opts : KnuthPlassOptions) (boxes : List Box)
    (i : Nat) (bx : Box) (a bp : Breakpoint)
    (h : tryBreak opts boxes i bx a = some bp) :
    bp.demerits =
      a.demerits +
        (opts.LinePenalty +
            calculateBadness (lineAdjr opts boxes a i) opts.Tolerance +
          usedPenalty opts bx) ^ 2 +
        (if opts.FitnessClass = true ∧
            1 < fitDiff (calculateFitness (lineAdjr opts boxes a i)) a.fitness
          then (100 : ℚ) else 0) := by
  rw [tryBreak_shape opts boxes i bx a bp h, demerits_node, fitPenalty]

theorem demerits_formula_witness :
    bp9.demerits =
      sentinel.demerits +
        (opts20.LinePenalty +
            calculateBadness (lineAdjr opts20 boxesA sentinel 0)
              opts20.Tolerance +
          usedPenalty opts20 boxA) ^ 2 +
        (if opts20.FitnessClass = true ∧
            1 < fitDiff (calculateFitness (lineAdjr opts20 boxesA sentinel 0))
              sentinel.fitness
          then (100 : ℚ) else 0) :=
  demerits_formula opts20 boxesA 0 boxA sentinel bp9 (by decide)

/-- Claim C10, confirmed.  The break penalty used for a non-glue fragment is
the configured hyphen penalty exactly when the fragment's content ends in a
literal hyphen — independent of the `Hyphenate` flag, which the extension
step never reads — and the fragment's own recorded penalty otherwise. -/
theorem hyphen_override (mw tol hp lp : ℚ) (fc b1 b2 : Bool)
    (boxes : List Box) (i : Nat) (bx : Box) (a : Breakpoint)
    (hng : bx.isGlue = false) :
    tryBreak ⟨mw, tol, fc, b1, hp, lp⟩ boxes i bx a =
        tryBreak ⟨mw, tol, fc, b2, hp, lp⟩ boxes i bx a ∧
      (bx.content.getLast? = some '-' →
        usedPenalty ⟨mw, tol, fc, b1, hp, lp⟩ bx = hp) ∧
      (bx.content.getLast? ≠ some '-' →
        usedPenalty ⟨mw, tol, fc, b1, hp, lp⟩ bx = bx.penalty) := by
  refine ⟨rfl, ?_, ?_⟩
  · intro h
    rw [usedPenalty, if_pos h]
  · intro h
    rw [usedPenalty, if_neg h]

theorem hyphen_override_witness :
    tryBreak ⟨20, 1, true, true, 50, 10⟩ boxesA 0 hyBox sentinel =
        tryBreak ⟨20, 1, true, false, 50, 10⟩ boxesA 0 hyBox sentinel ∧
      hyBox.isGlue = false ∧ hyBox.content.getLast? = some '-' ∧
      usedPenalty ⟨20, 1, true, true, 50, 10⟩ hyBox = 50 :=
  ⟨(hyphen_override 20 1 50 10 true true false boxesA 0 hyBox sentinel
      rfl).1,
    rfl, by decide,
    (hyphen_override 20 1 50 10 true true false boxesA 0 hyBox sentinel
      rfl).2.1 (by decide)⟩

end KP
